import Mathlib

/-!
Shallow embedding of the buildq coordination core (TypeScript sources under
`packages/server/src` and `packages/shared/src`), together with proofs about
the job-queue state machine, the runner registry, the SSE channel registry
and the storage layer.

Conventions used throughout:
* the single-threaded in-memory `Map` stores are modelled as association
  lists / job lists in insertion order (JS `Map` iterates in insertion
  order, and `set` of a fresh key appends);
* `Date.now()` is modelled by an explicit `now : Nat` argument threaded to
  every operation;
* `nanoid` id generation is modelled by an explicit `id : String` argument;
* thrown `Error`s are modelled by `Except` results paired with the
  (unchanged) store, mirroring that a TS `throw` leaves the global map
  untouched;
* filenames and filesystem paths are modelled as `List Char`, with absolute
  directories given as canonical segment lists.
-/

set_option autoImplicit false

/-- Job status enumeration from `packages/shared/src/types.ts`. -/
inductive JobStatus where
  | queued
  | claimed
  | building
  | success
  | error
  | cancelled
deriving DecidableEq, Repr, Fintype

/-- Platform enumeration from `packages/shared/src/types.ts`. -/
inductive Platform where
  | ios
  | android
deriving DecidableEq, Repr, Fintype

/-- The `Job` record from `packages/shared/src/types.ts`; optional TS fields
become `Option`. -/
structure Job where
  id : String
  status : JobStatus
  platform : Platform
  profile : String
  flags : List String
  submittedBy : String
  claimedBy : Option String
  createdAt : Nat
  updatedAt : Nat
  error : Option String
  exitCode : Option Int
  tarballFilename : Option String
  artifactFilename : Option String
deriving DecidableEq, Repr

/-- `VALID_TRANSITIONS` from `packages/shared/src/types.ts`. -/
def VALID_TRANSITIONS : JobStatus → List JobStatus
  | .queued => [.claimed, .cancelled]
  | .claimed => [.building, .cancelled, .error]
  | .building => [.success, .error, .cancelled]
  | .success => []
  | .error => []
  | .cancelled => []

/-- Errors thrown by `updateJobStatus` in `lib/queue.ts`; the two thrown
`Error` messages are kept apart structurally (the TS route layer
distinguishes them by the message text containing `not found`). -/
inductive QueueError where
  | notFound (id : String)
  | invalidTransition (fromStatus toStatus : JobStatus)
deriving DecidableEq, Repr

/-- `createJob` from `lib/queue.ts`.  `nanoid(12)` and `Date.now()` are
passed in as `id` and `now`; the new job is appended to the store by the
caller (JS `Map.set` of a fresh key appends in iteration order). -/
def createJob (now : Nat) (id : String) (platform : Platform) (profile : String)
    (flags : List String) (submittedBy : String) (tarballFilename : Option String) : Job :=
  { id := id
  , status := .queued
  , platform := platform
  , profile := profile
  , flags := flags
  , submittedBy := submittedBy
  , claimedBy := none
  , createdAt := now
  , updatedAt := now
  , error := none
  , exitCode := none
  , tarballFilename := tarballFilename
  , artifactFilename := none }

/-- The scan loop of `claimNextJob` in `lib/queue.ts`: walk the job list
carrying the index and the best candidate so far, skipping jobs that are not
`queued` or are for another platform, and replacing the candidate exactly
when `job.createdAt < oldest.createdAt`. -/
def claimScan (p : Platform) : List Job → Nat → Option (Nat × Job) → Option (Nat × Job)
  | [], _, acc => acc
  | job :: rest, i, acc =>
    if job.status ≠ JobStatus.queued ∨ job.platform ≠ p then
      claimScan p rest (i + 1) acc
    else
      match acc with
      | none => claimScan p rest (i + 1) (some (i, job))
      | some (k, oldest) =>
        if job.createdAt < oldest.createdAt then
          claimScan p rest (i + 1) (some (i, job))
        else
          claimScan p rest (i + 1) (some (k, oldest))

/-- The in-place mutation performed on the job selected by `claimNextJob`:
`status = 'claimed'`, `claimedBy = runnerId`, `updatedAt = Date.now()`. -/
def claimedJob (oldest : Job) (runnerId : String) (now : Nat) : Job :=
  { oldest with status := .claimed, claimedBy := some runnerId, updatedAt := now }

/-- `claimNextJob` from `lib/queue.ts`: find the oldest queued job for the
platform; if found, mutate it in place (modelled by `List.set` at its index)
to `claimed` with `claimedBy` and a fresh `updatedAt`, and return it. -/
def claimNextJob (js : List Job) (p : Platform) (runnerId : String) (now : Nat) :
    List Job × Option Job :=
  match claimScan p js 0 none with
  | none => (js, none)
  | some (i, oldest) =>
    (js.set i (claimedJob oldest runnerId now), some (claimedJob oldest runnerId now))

/-- Optional extra fields accepted by `updateJobStatus` (`UpdateExtra` in
`lib/queue.ts`); a `none` field models an `undefined` TS property. -/
structure UpdateExtra where
  error : Option String
  exitCode : Option Int
  artifactFilename : Option String
deriving DecidableEq, Repr

/-- Lookup of `jobs.get(id)` on the job-list model: first job whose `id`
matches, together with its index. -/
def findJob : List Job → String → Option (Nat × Job)
  | [], _ => none
  | j :: rest, id =>
    if j.id = id then some (0, j)
    else (findJob rest id).map (fun p => (p.1 + 1, p.2))

/-- The mutation performed by `updateJobStatus` after validation: set the
status, bump `updatedAt`, and apply each extra field only when present
(an absent field never clears the stored one). -/
def applyUpdate (job : Job) (newStatus : JobStatus) (extra : UpdateExtra) (now : Nat) : Job :=
  { job with
      status := newStatus
    , updatedAt := now
    , error := match extra.error with | some e => some e | none => job.error
    , exitCode := match extra.exitCode with | some c => some c | none => job.exitCode
    , artifactFilename :=
        match extra.artifactFilename with
        | some f => some f
        | none => job.artifactFilename }

/-- `updateJobStatus` from `lib/queue.ts`.  Throws (returns `.error` with
the store unchanged) when the job is unknown or the transition is not in
`VALID_TRANSITIONS`; otherwise applies `applyUpdate` in place. -/
def updateJobStatus (js : List Job) (id : String) (newStatus : JobStatus)
    (extra : UpdateExtra) (now : Nat) : List Job × Except QueueError Job :=
  match findJob js id with
  | none => (js, .error (.notFound id))
  | some (i, job) =>
    if newStatus ∈ VALID_TRANSITIONS job.status then
      (js.set i (applyUpdate job newStatus extra now), .ok (applyUpdate job newStatus extra now))
    else
      (js, .error (.invalidTransition job.status newStatus))

/-- A queue operation together with the `Date.now()` value and generated id
observed when it ran; used to describe the states reachable through the
public mutating API of `lib/queue.ts`. -/
inductive Op where
  | create (now : Nat) (id : String) (platform : Platform) (profile : String)
      (flags : List String) (submittedBy : String) (tarballFilename : Option String)
  | claim (now : Nat) (platform : Platform) (runnerId : String)
  | update (now : Nat) (id : String) (newStatus : JobStatus) (extra : UpdateExtra)
deriving DecidableEq, Repr

/-- Apply one operation to the job store, discarding the returned value. -/
def applyOp (js : List Job) : Op → List Job
  | .create now id p prof fl sub tf => js ++ [createJob now id p prof fl sub tf]
  | .claim now p r => (claimNextJob js p r now).1
  | .update now id ns ex => (updateJobStatus js id ns ex now).1

/-- Run a sequence of operations from the empty store. -/
def runOps (ops : List Op) : List Job :=
  ops.foldl applyOp []

/-- The `Date.now()` timestamp an operation ran at. -/
def opTime : Op → Nat
  | .create now _ _ _ _ _ _ => now
  | .claim now _ _ => now
  | .update now _ _ _ => now

/-- Eligibility test of the `claimNextJob` scan: `queued` and on the
requested platform. -/
def eligible (p : Platform) (j : Job) : Prop :=
  j.status = JobStatus.queued ∧ j.platform = p

instance (p : Platform) (j : Job) : Decidable (eligible p j) := by
  unfold eligible; infer_instance

/-!
SSE channel registry, `lib/sse.ts`.  The registry is
`Map<string, Map<string, SSEClient>>`; a subscriber handle is reduced to its
id (its `send`/`close` callbacks carry no registry-relevant state), and
`broadcast` is modelled by the list of `(clientId, event, data)` deliveries
it performs.
-/

/-- The channel map, in insertion order, with per-channel client-id lists. -/
abbrev Channels := List (String × List String)

/-- `channels.get(channel)` on the assoc-list model: first matching entry. -/
def lookupCh : Channels → String → Option (List String)
  | [], _ => none
  | (name, cs) :: rest, channel =>
    if name = channel then some cs else lookupCh rest channel

/-- Replace the value stored for an existing channel key (JS `Map.set` on a
present key updates in place). -/
def setCh : Channels → String → List String → Channels
  | [], _, _ => []
  | (name, cs) :: rest, channel, cs' =>
    if name = channel then (name, cs') :: rest
    else (name, cs) :: setCh rest channel cs'

/-- Delete a channel key (JS `Map.delete`). -/
def eraseCh : Channels → String → Channels
  | [], _ => []
  | (name, cs) :: rest, channel =>
    if name = channel then rest else (name, cs) :: eraseCh rest channel

/-- Inner `clients.set(client.id, client)`: clients are reduced to ids, so a
present id is left in place and a fresh id is appended. -/
def innerSet (cs : List String) (clientId : String) : List String :=
  if clientId ∈ cs then cs else cs ++ [clientId]

/-- `addClient` from `lib/sse.ts` (via `getOrCreateChannel`). -/
def addClient (chs : Channels) (channel clientId : String) : Channels :=
  match lookupCh chs channel with
  | none => chs ++ [(channel, [clientId])]
  | some cs => setCh chs channel (innerSet cs clientId)

/-- `removeClient` from `lib/sse.ts`: delete the client, then delete the
channel itself when it became empty. -/
def removeClient (chs : Channels) (channel clientId : String) : Channels :=
  match lookupCh chs channel with
  | none => chs
  | some cs =>
    let cs' := cs.erase clientId
    if cs' = [] then eraseCh chs channel else setCh chs channel cs'

/-- `broadcast` from `lib/sse.ts`, as the list of deliveries it makes: an
absent channel broadcasts to nobody (early `return`, no error), otherwise
every current subscriber receives `(event, serialized data)`. -/
def broadcast (chs : Channels) (channel event data : String) :
    List (String × String × String) :=
  match lookupCh chs channel with
  | none => []
  | some cs => cs.map (fun cid => (cid, event, data))

/-!
Runner registry, `routes/runners.ts`.
-/

/-- The `Runner` record from `packages/shared/src/types.ts`. -/
structure Runner where
  id : String
  hostname : String
  platforms : List Platform
  lastHeartbeat : Nat
deriving DecidableEq, Repr

/-- The runner store `Map<string, Runner>`, in insertion order. -/
abbrev RunnerMap := List (String × Runner)

/-- `runnerMap.get(id)`. -/
def lookupRunner : RunnerMap → String → Option Runner
  | [], _ => none
  | (k, r) :: rest, id => if k = id then some r else lookupRunner rest id

/-- `runnerMap.set(id, r)` for a key already present. -/
def setRunner : RunnerMap → String → Runner → RunnerMap
  | [], _, _ => []
  | (k, r) :: rest, id, r' =>
    if k = id then (k, r') :: rest else (k, r) :: setRunner rest id r'

/-- Responses of `POST /runners/heartbeat` in `routes/runners.ts`: a 400
validation response with its message, or a 200 carrying the upserted
runner. -/
inductive HeartbeatResult where
  | badRequest (msg : String)
  | ok (runner : Runner)
deriving DecidableEq, Repr

/-- The `POST /runners/heartbeat` handler from `routes/runners.ts`
(lines 51–83): reject a falsy `runnerId`, reject a missing or empty
`platforms` array, otherwise upsert.  The request body's `platforms` is
modelled as a `List Platform` (a present array), so the empty-list check is
the `length === 0` branch. -/
def heartbeatHandler (m : RunnerMap) (runnerId hostname : String)
    (platforms : List Platform) (now : Nat) : RunnerMap × HeartbeatResult :=
  if runnerId = "" then
    (m, .badRequest "Missing runnerId")
  else if platforms = [] then
    (m, .badRequest "Missing or empty platforms array")
  else
    match lookupRunner m runnerId with
    | some existing =>
      let r : Runner :=
        { existing with lastHeartbeat := now, hostname := hostname, platforms := platforms }
      (setRunner m runnerId r, .ok r)
    | none =>
      let r : Runner :=
        { id := runnerId
        , hostname := if hostname = "" then "unknown" else hostname
        , platforms := platforms
        , lastHeartbeat := now }
      (m ++ [(runnerId, r)], .ok r)

/-!
Storage layer, `lib/storage.ts`.  Filenames are `List Char`; an absolute
directory is a canonical list of path segments (what `path.resolve` of the
directory produced), rendered as `/seg1/seg2/...`.
-/

/-- The fallback name substituted by `sanitize` when nothing remains. -/
def fileFallback : List Char := ['f', 'i', 'l', 'e']

/-- The JS global-regex replacement `clean.replace(/\.\./g, '')`: scan left
to right, removing each non-overlapping `..` occurrence and continuing
after it. -/
def removeDotDot : List Char → List Char
  | [] => []
  | [c] => [c]
  | c1 :: c2 :: rest =>
    if c1 = '.' ∧ c2 = '.' then removeDotDot rest
    else c1 :: removeDotDot (c2 :: rest)

/-- `path.basename` (posix) on the model: strip trailing slashes, then keep
what follows the last remaining slash; an all-slash nonempty input yields
`/`.  At its use site in `sanitize` the input contains no slash at all, so
this reduces to the identity. -/
def basenameL (l : List Char) : List Char :=
  let t := l.reverse.dropWhile (fun c => c = '/')
  if t = [] then (if l = [] then [] else ['/'])
  else (t.takeWhile (fun c => c ≠ '/')).reverse

/-- The stripping pipeline of `sanitize` from `lib/storage.ts`: strip null
bytes, strip both slash kinds, strip `..` sequences, reduce to a
basename. -/
def sanitizeCore (input : List Char) : List Char :=
  basenameL (removeDotDot
    ((input.filter (fun c => c ≠ Char.ofNat 0)).filter (fun c => c ≠ '/' ∧ c ≠ '\\')))

/-- `sanitize` from `lib/storage.ts`: the stripping pipeline, falling back
to `file` when nothing remains. -/
def sanitize (input : List Char) : List Char :=
  if sanitizeCore input = [] then fileFallback else sanitizeCore input

/-- Split a relative path on `/` (for `path.resolve`'s segment walk). -/
def splitSlash : List Char → List Char → List (List Char)
  | [], cur => [cur.reverse]
  | c :: rest, cur =>
    if c = '/' then cur.reverse :: splitSlash rest []
    else splitSlash rest (c :: cur)

/-- `path.resolve(parent, child)` for an absolute canonical `parent`, as a
segment walk: an absolute `child` discards `parent`; then empty and `.`
segments are skipped, `..` pops, anything else is pushed. -/
def resolveUnder (parentSegs : List (List Char)) (child : List Char) : List (List Char) :=
  (splitSlash child []).foldl
    (fun acc seg =>
      if seg = [] ∨ seg = ['.'] then acc
      else if seg = ['.', '.'] then acc.dropLast
      else acc ++ [seg])
    (if child.head? = some '/' then [] else parentSegs)

/-- Render a canonical absolute segment list as `/seg1/seg2/...`. -/
def renderPath (segs : List (List Char)) : List Char :=
  segs.foldl (fun acc seg => acc ++ '/' :: seg) []

/-- `String.prototype.startsWith` on char lists. -/
def startsWithL : List Char → List Char → Bool
  | [], _ => true
  | _ :: _, [] => false
  | a :: as, b :: bs => a = b && startsWithL as bs

/-- `safePath` from `lib/storage.ts`: resolve `child` under `parent` and
fail with the distinct path-traversal error unless the result is `parent`
itself or lies strictly under `parent/`. -/
def safePath (parentSegs : List (List Char)) (child : List Char) :
    Except String (List Char) :=
  let parent := renderPath parentSegs
  let resolved := renderPath (resolveUnder parentSegs child)
  if startsWithL (parent ++ ['/']) resolved = true ∨ resolved = parent then
    .ok resolved
  else
    .error "Path traversal detected"

/-- The destination path computed by `saveArtifact` in `lib/storage.ts`
before writing: `safePath(artifactsDir, sanitize(jobId) + '-' +
sanitize(originalFilename))`. -/
def saveArtifactDest (artifactsDirSegs : List (List Char))
    (jobId originalFilename : List Char) : Except String (List Char) :=
  let safeId := sanitize jobId
  let safeName := sanitize originalFilename
  safePath artifactsDirSegs (safeId ++ '-' :: safeName)

/-- The `.tar.gz` suffix appended by `saveTarball`. -/
def tarGzSuffix : List Char := ['.', 't', 'a', 'r', '.', 'g', 'z']

/-- The destination path computed by `saveTarball` in `lib/storage.ts`:
`safePath(tarballsDir, sanitize(jobId) + '.tar.gz')`. -/
def saveTarballDest (tarballsDirSegs : List (List Char)) (jobId : List Char) :
    Except String (List Char) :=
  let safeId := sanitize jobId
  safePath tarballsDirSegs (safeId ++ tarGzSuffix)

/-!
`writeWithLimit` from `lib/storage.ts`.  The file at the destination path is
modelled as `Option (List Nat)` (absent, or present with its bytes); the two
TS input shapes are the in-memory `Buffer` (checked up front, written
whole) and the web stream, a list of chunks fed through the size-enforcing
`Transform` into a `createWriteStream` (which truncates on open) with
`rm(dest, force)` on pipeline failure.
-/

/-- Buffer branch of `writeWithLimit`: over-limit buffers are rejected
before anything is written, otherwise the file is written whole. -/
def writeBuffer (fileBefore : Option (List Nat)) (data : List Nat) (maxBytes : Nat) :
    Option (List Nat) × Except String Unit :=
  if data.length > maxBytes then
    (fileBefore, .error "Payload exceeds size limit")
  else
    (some data, .ok ())

/-- Streaming branch of `writeWithLimit`: accumulate chunks while checking
the running byte count incrementally; on overflow the pipeline fails and the
partial file is removed (`rm force`), leaving nothing at the destination. -/
def writeStreamGo (maxBytes : Nat) : List (List Nat) → Nat → List Nat →
    Option (List Nat) × Except String Unit
  | [], _, acc => (some acc, .ok ())
  | chunk :: rest, written, acc =>
    let written' := written + chunk.length
    if written' > maxBytes then
      (none, .error "Payload exceeds size limit")
    else
      writeStreamGo maxBytes rest written' (acc ++ chunk)

/-- Streaming `writeWithLimit` from the start of the stream (the write
stream truncates the destination on open, so the accumulator starts
empty). -/
def writeStream (chunks : List (List Nat)) (maxBytes : Nat) :
    Option (List Nat) × Except String Unit :=
  writeStreamGo maxBytes chunks 0 []

/-!
`POST /jobs/:id/artifact` from `routes/jobs.ts` (lines 219–261), after the
multipart field checks: look the job up, require `building` or `success`,
save the artifact (modelled by a flag recording that the file was written),
then call `updateJobStatus(jobId, job.status, { artifactFilename })`; a
throw is caught and turned into a 400 `Failed to save artifact` response.
-/

/-- Responses of the artifact upload route. -/
inductive UploadResponse where
  | jobNotFound
  | wrongStatus (s : JobStatus)
  | failed (e : QueueError)
  | uploaded (filename : String)
deriving DecidableEq, Repr

/-- Direct mutation `job.artifactFilename = artifact.name` (line 250). -/
def setArtifactName (js : List Job) (id name : String) : List Job :=
  match findJob js id with
  | none => js
  | some (i, job) => js.set i { job with artifactFilename := some name }

/-- The artifact-upload handler: returns the job store afterwards, whether
the artifact file was written to storage, and the HTTP response. -/
def artifactUpload (js : List Job) (jobId artName : String) (now : Nat) :
    List Job × Bool × UploadResponse :=
  match findJob js jobId with
  | none => (js, false, .jobNotFound)
  | some (_, job) =>
    if job.status ≠ JobStatus.building ∧ job.status ≠ JobStatus.success then
      (js, false, .wrongStatus job.status)
    else
      match updateJobStatus js jobId job.status ⟨none, none, some artName⟩ now with
      | (js', .ok _) => (setArtifactName js' jobId artName, true, .uploaded artName)
      | (_, .error e) => (js, true, .failed e)


/-!
Helper lemmas about the job-queue model, shared by several results below.
-/

/-- `findJob` returns the job stored at the returned index, and that job
carries the requested id. -/
theorem findJob_spec : ∀ (js : List Job) (id : String) (i : Nat) (job : Job),
    findJob js id = some (i, job) → js[i]? = some job ∧ job.id = id := by
  intro js
  induction js with
  | nil => intro id i job h; simp [findJob] at h
  | cons j rest ih =>
    intro id i job h
    rw [show findJob (j :: rest) id =
        (if j.id = id then some (0, j)
         else (findJob rest id).map (fun p => (p.1 + 1, p.2))) from rfl] at h
    by_cases hid : j.id = id
    · rw [if_pos hid] at h
      simp only [Option.some.injEq, Prod.mk.injEq] at h
      obtain ⟨h1, h2⟩ := h
      subst h2
      rw [← h1]
      exact ⟨by simp, hid⟩
    · rw [if_neg hid] at h
      cases hrec : findJob rest id with
      | none => rw [hrec] at h; simp at h
      | some pr =>
        obtain ⟨i', job'⟩ := pr
        rw [hrec] at h
        simp only [Option.map_some', Option.some.injEq, Prod.mk.injEq] at h
        obtain ⟨h1, h2⟩ := h
        subst h2
        have hr := ih id i' job' hrec
        rw [← h1]
        simpa using hr

/-- No transition of `VALID_TRANSITIONS` ever targets `queued`. -/
theorem valid_target_ne_queued :
    ∀ s ns : JobStatus, ns ∈ VALID_TRANSITIONS s → ns ≠ JobStatus.queued := by
  decide

/-- Invariant carried by the fold of `claimScan` after the jobs `pre` have
been examined. -/
def scanInv (p : Platform) (pre : List Job) : Option (Nat × Job) → Prop
  | none => ∀ j ∈ pre, ¬ eligible p j
  | some (k, o) =>
      pre[k]? = some o ∧ eligible p o ∧
        ∀ j ∈ pre, eligible p j → o.createdAt ≤ j.createdAt

theorem scanInv_snoc_inelig {p : Platform} {pre : List Job} {acc : Option (Nat × Job)}
    {job : Job} (h : scanInv p pre acc) (hj : ¬ eligible p job) :
    scanInv p (pre ++ [job]) acc := by
  match acc with
  | none =>
    intro x hx
    rcases List.mem_append.1 hx with h' | h'
    · exact h x h'
    · simp at h'; subst h'; exact hj
  | some (k, o) =>
    obtain ⟨hget, helig, hmin⟩ := h
    have hk : k < pre.length := (List.getElem?_eq_some.mp hget).1
    refine ⟨?_, helig, ?_⟩
    · rw [List.getElem?_append]; simp [hk, hget]
    · intro x hx he
      rcases List.mem_append.1 hx with h' | h'
      · exact hmin x h' he
      · simp at h'; subst h'; exact absurd he hj

theorem scanInv_snoc_first {p : Platform} {pre : List Job} {job : Job}
    (h : scanInv p pre none) (he : eligible p job) :
    scanInv p (pre ++ [job]) (some (pre.length, job)) := by
  refine ⟨by simp, he, ?_⟩
  intro x hx hex
  rcases List.mem_append.1 hx with h' | h'
  · exact absurd hex (h x h')
  · simp at h'; subst h'; exact le_refl _

theorem scanInv_snoc_better {p : Platform} {pre : List Job} {k : Nat} {o job : Job}
    (h : scanInv p pre (some (k, o))) (he : eligible p job)
    (hlt : job.createdAt < o.createdAt) :
    scanInv p (pre ++ [job]) (some (pre.length, job)) := by
  obtain ⟨hget, helig, hmin⟩ := h
  refine ⟨by simp, he, ?_⟩
  intro x hx hex
  rcases List.mem_append.1 hx with h' | h'
  · exact le_trans (le_of_lt hlt) (hmin x h' hex)
  · simp at h'; subst h'; exact le_refl _

theorem scanInv_snoc_keep {p : Platform} {pre : List Job} {k : Nat} {o job : Job}
    (h : scanInv p pre (some (k, o))) (hge : ¬ job.createdAt < o.createdAt) :
    scanInv p (pre ++ [job]) (some (k, o)) := by
  obtain ⟨hget, helig, hmin⟩ := h
  have hk : k < pre.length := (List.getElem?_eq_some.mp hget).1
  refine ⟨?_, helig, ?_⟩
  · rw [List.getElem?_append]; simp [hk, hget]
  · intro x hx hex
    rcases List.mem_append.1 hx with h' | h'
    · exact hmin x h' hex
    · simp at h'; subst h'; exact le_of_not_lt hge

/-- One-step unfolding of `claimScan` on a cons cell. -/
theorem claimScan_cons (p : Platform) (job : Job) (rest : List Job) (i : Nat)
    (acc : Option (Nat × Job)) :
    claimScan p (job :: rest) i acc =
      if job.status ≠ JobStatus.queued ∨ job.platform ≠ p then
        claimScan p rest (i + 1) acc
      else
        match acc with
        | none => claimScan p rest (i + 1) (some (i, job))
        | some (k, oldest) =>
          if job.createdAt < oldest.createdAt then
            claimScan p rest (i + 1) (some (i, job))
          else
            claimScan p rest (i + 1) (some (k, oldest)) := rfl

/-- Main loop invariant of `claimScan`. -/
theorem claimScan_go (p : Platform) : ∀ (rest pre : List Job) (acc : Option (Nat × Job)),
    scanInv p pre acc → scanInv p (pre ++ rest) (claimScan p rest pre.length acc) := by
  intro rest
  induction rest with
  | nil => intro pre acc h; simpa [claimScan]
  | cons job rest' ih =>
    intro pre acc h
    have hlen : (pre ++ [job]).length = pre.length + 1 := by simp
    have hassoc : (pre ++ [job]) ++ rest' = pre ++ job :: rest' := by
      rw [List.append_assoc]; rfl
    by_cases hc : job.status ≠ JobStatus.queued ∨ job.platform ≠ p
    · have hne : ¬ eligible p job := by
        intro he
        rcases hc with h' | h'
        · exact h' he.1
        · exact h' he.2
      have h' := ih (pre ++ [job]) acc (scanInv_snoc_inelig h hne)
      rw [hlen, hassoc] at h'
      rw [claimScan_cons, if_pos hc]
      exact h'
    · have he : eligible p job := by
        push_neg at hc
        exact ⟨hc.1, hc.2⟩
      rw [claimScan_cons, if_neg hc]
      match acc with
      | none =>
        have h' := ih (pre ++ [job]) (some (pre.length, job)) (scanInv_snoc_first h he)
        rw [hlen, hassoc] at h'
        exact h'
      | some (k, o) =>
        by_cases hlt : job.createdAt < o.createdAt
        · have h' := ih (pre ++ [job]) (some (pre.length, job)) (scanInv_snoc_better h he hlt)
          rw [hlen, hassoc] at h'
          simpa [hlt] using h'
        · have h' := ih (pre ++ [job]) (some (k, o)) (scanInv_snoc_keep h hlt)
          rw [hlen, hassoc] at h'
          simpa [hlt] using h'

/-- The scan of `claimNextJob` satisfies `scanInv` over the whole store. -/
theorem claimScan_spec (p : Platform) (js : List Job) :
    scanInv p js (claimScan p js 0 none) := by
  have h := claimScan_go p js [] none (by intro j hj; simp at hj)
  simpa using h

/-- Membership in the store after `claimNextJob`: every job either was
already there, or is the claimed mutation of a job that was there. -/
theorem claim_state_mem {js : List Job} {p : Platform} {r : String} {now : Nat} {x : Job}
    (hx : x ∈ (claimNextJob js p r now).1) :
    x ∈ js ∨ ∃ oldest ∈ js, x = claimedJob oldest r now := by
  cases hscan : claimScan p js 0 none with
  | none => left; simpa [claimNextJob, hscan] using hx
  | some pr =>
    obtain ⟨k, oldest⟩ := pr
    have hinv := claimScan_spec p js
    rw [hscan] at hinv
    obtain ⟨hget, helig, hmin⟩ := hinv
    simp only [claimNextJob, hscan] at hx
    rcases List.mem_or_eq_of_mem_set hx with h | h
    · left; exact h
    · right; exact ⟨oldest, List.getElem?_mem hget, h⟩

/-- Membership in the store after `updateJobStatus`: every job either was
already there, or is the validated update of a job that was there. -/
theorem update_state_mem {js : List Job} {id : String} {ns : JobStatus}
    {ex : UpdateExtra} {now : Nat} {x : Job}
    (hx : x ∈ (updateJobStatus js id ns ex now).1) :
    x ∈ js ∨ ∃ job ∈ js, ns ∈ VALID_TRANSITIONS job.status ∧ x = applyUpdate job ns ex now := by
  cases hfind : findJob js id with
  | none => left; simpa [updateJobStatus, hfind] using hx
  | some pr =>
    obtain ⟨i, job⟩ := pr
    have hspec := findJob_spec js id i job hfind
    by_cases hmem : ns ∈ VALID_TRANSITIONS job.status
    · simp only [updateJobStatus, hfind, if_pos hmem] at hx
      rcases List.mem_or_eq_of_mem_set hx with h | h
      · left; exact h
      · right; exact ⟨job, List.getElem?_mem hspec.1, hmem, h⟩
    · left; simpa [updateJobStatus, hfind, if_neg hmem] using hx

/-- Claim C1: `claimNextJob(platform, runnerId)` selects, among all jobs
with status `queued` and the given platform, one with the smallest
`createdAt`; it sets that job's status to `claimed`, records `claimedBy`
and bumps `updatedAt`, returning the mutated job; when no eligible job
exists it returns `none` and leaves every job unmutated. -/
theorem claimNextJob_selects_oldest_queued (js : List Job) (p : Platform)
    (r : String) (now : Nat) :
    ((claimNextJob js p r now).2 = none →
      (claimNextJob js p r now).1 = js ∧ ∀ j ∈ js, ¬ eligible p j)
    ∧ (∀ cj, (claimNextJob js p r now).2 = some cj →
        ∃ k oldest, js[k]? = some oldest ∧ eligible p oldest ∧
          (∀ j ∈ js, eligible p j → oldest.createdAt ≤ j.createdAt) ∧
          cj = claimedJob oldest r now ∧
          (claimNextJob js p r now).1 = js.set k cj) := by
  have hinv := claimScan_spec p js
  cases hscan : claimScan p js 0 none with
  | none =>
    rw [hscan] at hinv
    refine ⟨fun _ => ⟨by simp [claimNextJob, hscan], hinv⟩, ?_⟩
    intro cj hcj
    simp [claimNextJob, hscan] at hcj
  | some pr =>
    obtain ⟨k, oldest⟩ := pr
    rw [hscan] at hinv
    obtain ⟨hget, helig, hmin⟩ := hinv
    constructor
    · intro hnone; simp [claimNextJob, hscan] at hnone
    · intro cj hcj
      simp only [claimNextJob, hscan, Option.some.injEq] at hcj
      refine ⟨k, oldest, hget, helig, hmin, hcj.symm, ?_⟩
      simp [claimNextJob, hscan, hcj]

/-- Concrete store for the C1 witness: two queued iOS jobs, `jobA` older. -/
def jobA : Job := createJob 1 "a" Platform.ios "dev" [] "alice" none

def jobB : Job := createJob 2 "b" Platform.ios "dev" [] "bob" none

def jsW : List Job := [jobA, jobB]

def cjW : Job := claimedJob jobA "r1" 10

theorem claimNextJob_selects_oldest_queued_witness :
    cjW.status = JobStatus.claimed ∧ cjW.claimedBy = some "r1" ∧ cjW.updatedAt = 10 := by
  obtain ⟨k, oldest, h1, h2, h3, h4, h5⟩ :=
    (claimNextJob_selects_oldest_queued jsW Platform.ios "r1" 10).2 cjW (by decide)
  rw [h4]
  exact ⟨rfl, rfl, rfl⟩

/-!
Reachability invariants over the queue operations.
-/

/-- One-direction `claimedBy` invariant: a set `claimedBy` implies the job
has left `queued`. -/
def claimedByInv (js : List Job) : Prop :=
  ∀ j ∈ js, j.claimedBy.isSome → j.status ≠ JobStatus.queued

theorem claimedByInv_step {js : List Job} (op : Op) (h : claimedByInv js) :
    claimedByInv (applyOp js op) := by
  cases op with
  | create now id p prof fl sub tf =>
    intro j hj hsome
    rcases List.mem_append.1 hj with h' | h'
    · exact h j h' hsome
    · simp at h'; subst h'; simp [createJob] at hsome
  | claim now p r =>
    intro j hj hsome
    rcases claim_state_mem hj with h' | ⟨oldest, _, heq⟩
    · exact h j h' hsome
    · subst heq; simp [claimedJob]
  | update now id ns ex =>
    intro j hj hsome
    rcases update_state_mem hj with h' | ⟨job, _, hvalid, heq⟩
    · exact h j h' hsome
    · subst heq
      simpa [applyUpdate] using valid_target_ne_queued job.status ns hvalid

theorem claimedByInv_fold : ∀ (ops : List Op) (js : List Job),
    claimedByInv js → claimedByInv (List.foldl applyOp js ops) := by
  intro ops
  induction ops with
  | nil => intro js h; simpa
  | cons op rest ih =>
    intro js h
    exact ih (applyOp js op) (claimedByInv_step op h)

/-- Claim C5 (amended direction): in every store reachable through
`createJob`, `claimNextJob` and `updateJobStatus`, a job with `claimedBy`
set has left the `queued` status.  The converse fails: cancelling from
`queued` leaves `claimedBy` unset (see the counterexample). -/
theorem claimedBy_implies_past_queued (ops : List Op) (j : Job)
    (hj : j ∈ runOps ops) (hsome : j.claimedBy.isSome) :
    j.status ≠ JobStatus.queued :=
  claimedByInv_fold ops [] (by intro x hx; simp at hx) j hj hsome

/-- The operation sequence of the C5 counterexample: create a job and
cancel it straight from `queued`. -/
def opsC5 : List Op :=
  [ .create 0 "j1" Platform.ios "dev" [] "alice" none
  , .update 1 "j1" JobStatus.cancelled ⟨none, none, none⟩ ]

/-- The job that sequence produces. -/
def jobC5 : Job :=
  { id := "j1"
  , status := .cancelled
  , platform := .ios
  , profile := "dev"
  , flags := []
  , submittedBy := "alice"
  , claimedBy := none
  , createdAt := 0
  , updatedAt := 1
  , error := none
  , exitCode := none
  , tarballFilename := none
  , artifactFilename := none }

/-- Claim C5 counterexample: a job cancelled directly from `queued` has a
status past `queued` yet `claimedBy` is not set, so the biconditional of
the claim fails on this reachable store. -/
theorem claimedBy_iff_counterexample :
    runOps opsC5 = [jobC5] ∧ jobC5.status = JobStatus.cancelled ∧
      jobC5.status ≠ JobStatus.queued ∧ jobC5.claimedBy = none := by
  refine ⟨by decide, rfl, by decide, rfl⟩

/-- Operation sequence for the C5 witness: create a job, then claim it. -/
def opsC5w : List Op :=
  [ .create 0 "j1" Platform.ios "dev" [] "alice" none
  , .claim 1 Platform.ios "r9" ]

/-- The claimed job that sequence produces. -/
def jobC5claimed : Job :=
  claimedJob (createJob 0 "j1" Platform.ios "dev" [] "alice" none) "r9" 1

theorem claimedBy_implies_past_queued_witness : jobC5claimed.status ≠ JobStatus.queued :=
  claimedBy_implies_past_queued opsC5w jobC5claimed (by decide) (by decide)

/-- Clock invariant: every stored job satisfies `createdAt ≤ updatedAt`,
and no stored timestamp exceeds the time bound `t`. -/
def timeInv (t : Nat) (js : List Job) : Prop :=
  ∀ j ∈ js, j.createdAt ≤ j.updatedAt ∧ j.updatedAt ≤ t

theorem timeInv_step {js : List Job} {t : Nat} (op : Op) (h : timeInv t js)
    (hle : t ≤ opTime op) : timeInv (opTime op) (applyOp js op) := by
  cases op with
  | create now id p prof fl sub tf =>
    intro j hj
    rcases List.mem_append.1 hj with h' | h'
    · obtain ⟨h1, h2⟩ := h j h'
      exact ⟨h1, le_trans h2 hle⟩
    · simp at h'; subst h'
      simp [createJob, opTime]
  | claim now p r =>
    intro j hj
    rcases claim_state_mem hj with h' | ⟨oldest, hmem, heq⟩
    · obtain ⟨h1, h2⟩ := h j h'
      exact ⟨h1, le_trans h2 hle⟩
    · subst heq
      obtain ⟨h1, h2⟩ := h oldest hmem
      simp only [claimedJob, opTime] at *
      exact ⟨le_trans h1 (le_trans h2 hle), le_refl _⟩
  | update now id ns ex =>
    intro j hj
    rcases update_state_mem hj with h' | ⟨job, hmem, _, heq⟩
    · obtain ⟨h1, h2⟩ := h j h'
      exact ⟨h1, le_trans h2 hle⟩
    · subst heq
      obtain ⟨h1, h2⟩ := h job hmem
      simp only [applyUpdate, opTime] at *
      exact ⟨le_trans h1 (le_trans h2 hle), le_refl _⟩

theorem timeInv_fold : ∀ (ops : List Op) (js : List Job) (t : Nat),
    timeInv t js → List.Chain' (· ≤ ·) (t :: ops.map opTime) →
    ∃ t', timeInv t' (List.foldl applyOp js ops) := by
  intro ops
  induction ops with
  | nil => intro js t h _; exact ⟨t, h⟩
  | cons op rest ih =>
    intro js t h hchain
    rw [List.map_cons, List.chain'_cons] at hchain
    exact ih (applyOp js op) (opTime op) (timeInv_step op h hchain.1) hchain.2

/-- Claim C8: after any sequence of `createJob`, `claimNextJob` and
`updateJobStatus` operations whose `Date.now()` readings are
non-decreasing, every stored job satisfies `updatedAt ≥ createdAt`. -/
theorem updatedAt_ge_createdAt (ops : List Op) (j : Job)
    (hmono : List.Chain' (· ≤ ·) (ops.map opTime)) (hj : j ∈ runOps ops) :
    j.createdAt ≤ j.updatedAt := by
  have hchain : List.Chain' (· ≤ ·) (0 :: ops.map opTime) := by
    rw [List.chain'_cons']
    exact ⟨fun b _ => Nat.zero_le b, hmono⟩
  have hstart : timeInv 0 [] := by intro x hx; simp at hx
  obtain ⟨t', hinv⟩ := timeInv_fold ops [] 0 hstart hchain
  exact (hinv j hj).1

/-- Operation sequence for the C8 witness: create, claim later, report a
status later still. -/
def opsC8 : List Op :=
  [ .create 3 "j1" Platform.android "prod" [] "amy" none
  , .claim 5 Platform.android "r2"
  , .update 9 "j1" JobStatus.building ⟨none, none, none⟩ ]

/-- The job that sequence produces. -/
def jobC8 : Job :=
  applyUpdate (claimedJob (createJob 3 "j1" Platform.android "prod" [] "amy" none) "r2" 5)
    JobStatus.building ⟨none, none, none⟩ 9

theorem updatedAt_ge_createdAt_witness : jobC8.createdAt ≤ jobC8.updatedAt :=
  updatedAt_ge_createdAt opsC8 jobC8
    (by simp [opsC8, opTime, List.chain'_cons]) (by decide)

/-- Claim C2: `updateJobStatus` succeeds exactly when the requested edge is
in the transition table (`queued → claimed/cancelled`,
`claimed → building/cancelled/error`, `building → success/error/cancelled`,
terminals closed); any other attempt on an existing job fails with an
invalid-transition error carrying both the current and requested status,
structurally distinct from the not-found error, and leaves the store —
hence the job and all its fields — unchanged. -/
theorem updateJobStatus_transition_table :
    (VALID_TRANSITIONS JobStatus.queued = [JobStatus.claimed, JobStatus.cancelled]
      ∧ VALID_TRANSITIONS JobStatus.claimed = [JobStatus.building, JobStatus.cancelled, JobStatus.error]
      ∧ VALID_TRANSITIONS JobStatus.building = [JobStatus.success, JobStatus.error, JobStatus.cancelled]
      ∧ VALID_TRANSITIONS JobStatus.success = []
      ∧ VALID_TRANSITIONS JobStatus.error = []
      ∧ VALID_TRANSITIONS JobStatus.cancelled = [])
    ∧ (∀ (js : List Job) (id : String) (ns : JobStatus) (ex : UpdateExtra) (now i : Nat) (job : Job),
        findJob js id = some (i, job) →
          ((∃ j', (updateJobStatus js id ns ex now).2 = .ok j') ↔ ns ∈ VALID_TRANSITIONS job.status))
    ∧ (∀ (js : List Job) (id : String) (ns : JobStatus) (ex : UpdateExtra) (now i : Nat) (job : Job),
        findJob js id = some (i, job) → ns ∉ VALID_TRANSITIONS job.status →
          updateJobStatus js id ns ex now = (js, .error (.invalidTransition job.status ns)))
    ∧ (∀ (js : List Job) (id : String) (ns : JobStatus) (ex : UpdateExtra) (now : Nat),
        findJob js id = none → updateJobStatus js id ns ex now = (js, .error (.notFound id)))
    ∧ (∀ (a b : JobStatus) (c : String), QueueError.invalidTransition a b ≠ QueueError.notFound c) := by
  refine ⟨⟨rfl, rfl, rfl, rfl, rfl, rfl⟩, ?_, ?_, ?_, ?_⟩
  · intro js id ns ex now i job hfind
    constructor
    · rintro ⟨j', hj'⟩
      by_cases hmem : ns ∈ VALID_TRANSITIONS job.status
      · exact hmem
      · simp [updateJobStatus, hfind, if_neg hmem] at hj'
    · intro hmem
      exact ⟨applyUpdate job ns ex now, by simp [updateJobStatus, hfind, if_pos hmem]⟩
  · intro js id ns ex now i job hfind hmem
    simp [updateJobStatus, hfind, if_neg hmem]
  · intro js id ns ex now hfind
    simp [updateJobStatus, hfind]
  · intro a b c h
    exact QueueError.noConfusion h

/-- Concrete job in `success` for the C2 witness. -/
def jobC2 : Job := { jobA with id := "s", status := JobStatus.success }

theorem updateJobStatus_transition_table_witness :
    updateJobStatus [jobC2] "s" JobStatus.building ⟨none, none, none⟩ 7
      = ([jobC2], .error (.invalidTransition JobStatus.success JobStatus.building)) :=
  updateJobStatus_transition_table.2.2.1 [jobC2] "s" JobStatus.building
    ⟨none, none, none⟩ 7 0 jobC2 (by decide) (by decide)

/-- Claim C9: no status ever appears in its own allowed-transition list, so
the artifact-upload route's `updateJobStatus(jobId, job.status, ...)` call
always throws for the `building`/`success` jobs that reach it; the route
therefore answers with the caught-error 400 response even though the
artifact file was already written to storage, and the job store is left
unchanged. -/
theorem self_transition_artifact_upload :
    (∀ s : JobStatus, s ∉ VALID_TRANSITIONS s)
    ∧ (∀ (js : List Job) (jobId name : String) (now i : Nat) (job : Job),
        findJob js jobId = some (i, job) →
        (job.status = JobStatus.building ∨ job.status = JobStatus.success) →
        artifactUpload js jobId name now =
          (js, true, .failed (.invalidTransition job.status job.status))) := by
  have hself : ∀ s : JobStatus, s ∉ VALID_TRANSITIONS s := by decide
  refine ⟨hself, ?_⟩
  intro js jobId name now i job hfind hstatus
  have hcond : ¬ (job.status ≠ JobStatus.building ∧ job.status ≠ JobStatus.success) := by
    rcases hstatus with h | h
    · intro hc; exact hc.1 h
    · intro hc; exact hc.2 h
  have hupd : updateJobStatus js jobId job.status ⟨none, none, some name⟩ now
      = (js, .error (.invalidTransition job.status job.status)) := by
    simp [updateJobStatus, hfind, hself job.status]
  simp [artifactUpload, hfind, hcond, hupd]

/-- Concrete building job for the C9 witness. -/
def jobC9 : Job := { jobA with id := "b1", status := JobStatus.building }

theorem self_transition_artifact_upload_witness :
    artifactUpload [jobC9] "b1" "app.ipa" 4
      = ([jobC9], true, .failed (.invalidTransition JobStatus.building JobStatus.building)) :=
  self_transition_artifact_upload.2 [jobC9] "b1" "app.ipa" 4 0 jobC9
    (by decide) (Or.inl rfl)

/-- Claim C6 counterexample: a heartbeat with a valid runner id and an
empty platform list is answered with the 400 validation response and the
runner map is left untouched — the runner is rejected, not recorded. -/
theorem empty_platforms_rejected_counterexample :
    heartbeatHandler [] "r1" "host1" [] 5
      = ([], .badRequest "Missing or empty platforms array") := by
  decide

/-- Claim C6 (amended): a heartbeat carrying an empty platform list is
rejected with the `Missing or empty platforms array` validation error and
is never recorded — the runner map is returned unchanged — for every
non-empty runner id and every prior registry state. -/
theorem heartbeat_empty_platforms_rejected (m : RunnerMap) (runnerId hostname : String)
    (now : Nat) (hid : runnerId ≠ "") :
    heartbeatHandler m runnerId hostname [] now
      = (m, .badRequest "Missing or empty platforms array") := by
  simp [heartbeatHandler, hid]

theorem heartbeat_empty_platforms_rejected_witness :
    heartbeatHandler [] "runner-7" "mac-mini" [] 42
      = ([], .badRequest "Missing or empty platforms array") :=
  heartbeat_empty_platforms_rejected [] "runner-7" "mac-mini" 42 (by decide)

/-!
Channel registry lemmas for C7.
-/

/-- A successful channel lookup means the key occurs in the map. -/
theorem lookupCh_mem : ∀ (chs : Channels) (ch : String) (cs : List String),
    lookupCh chs ch = some cs → ch ∈ chs.map Prod.fst := by
  intro chs
  induction chs with
  | nil => intro ch cs h; simp [lookupCh] at h
  | cons e rest ih =>
    intro ch cs h
    obtain ⟨name, cs'⟩ := e
    rw [show lookupCh ((name, cs') :: rest) ch
        = if name = ch then some cs' else lookupCh rest ch from rfl] at h
    by_cases hn : name = ch
    · simp [hn]
    · rw [if_neg hn] at h
      simp only [List.map_cons, List.mem_cons]
      exact Or.inr (ih ch cs h)

/-- Looking a channel up after `eraseCh` finds nothing, provided channel
keys are unique (which holds for a JS `Map`). -/
theorem lookupCh_eraseCh : ∀ (chs : Channels) (ch : String),
    (chs.map Prod.fst).Nodup → lookupCh (eraseCh chs ch) ch = none := by
  intro chs
  induction chs with
  | nil => intro ch _; simp [eraseCh, lookupCh]
  | cons e rest ih =>
    intro ch hnodup
    obtain ⟨name, cs⟩ := e
    simp only [List.map_cons, List.nodup_cons] at hnodup
    by_cases hn : name = ch
    · rw [show eraseCh ((name, cs) :: rest) ch = rest from by simp [eraseCh, hn]]
      subst hn
      cases hlook : lookupCh rest name with
      | none => rfl
      | some cs' => exact absurd (lookupCh_mem rest name cs' hlook) hnodup.1
    · rw [show eraseCh ((name, cs) :: rest) ch
          = (name, cs) :: eraseCh rest ch from by simp [eraseCh, hn]]
      rw [show lookupCh ((name, cs) :: eraseCh rest ch) ch
          = if name = ch then some cs else lookupCh (eraseCh rest ch) ch from rfl]
      rw [if_neg hn]
      exact ih ch hnodup.2

/-- Claim C7: when `removeClient` removes the last remaining subscriber of
a channel, the channel entry itself is deleted from the registry (so it
holds zero stored subscribers), and a subsequent `broadcast` to that
channel delivers nothing — an early return, not an error.  The `Nodup`
hypothesis is the JS `Map` representation invariant (unique keys). -/
theorem channel_removed_after_last_unsubscribe (chs : Channels) (ch cid : String)
    (hnodup : (chs.map Prod.fst).Nodup) (hlast : lookupCh chs ch = some [cid]) :
    removeClient chs ch cid = eraseCh chs ch
    ∧ lookupCh (removeClient chs ch cid) ch = none
    ∧ ∀ event data, broadcast (removeClient chs ch cid) ch event data = [] := by
  have herase : removeClient chs ch cid = eraseCh chs ch := by
    simp [removeClient, hlast, List.erase_cons_head]
  have hnone : lookupCh (removeClient chs ch cid) ch = none := by
    rw [herase]; exact lookupCh_eraseCh chs ch hnodup
  exact ⟨herase, hnone, fun event data => by simp [broadcast, hnone]⟩

theorem channel_removed_after_last_unsubscribe_witness :
    lookupCh (removeClient [("job:1", ["c1"])] "job:1" "c1") "job:1" = none
    ∧ broadcast (removeClient [("job:1", ["c1"])] "job:1" "c1") "job:1" "job:status" "x" = [] :=
  have h := channel_removed_after_last_unsubscribe [("job:1", ["c1"])] "job:1" "c1"
    (by decide) (by decide)
  ⟨h.2.1, h.2.2 "job:status" "x"⟩

/-!
Size-limit enforcement, C4.
-/

/-- If some prefix of the remaining stream pushes the running count over
the limit, the pipeline fails and the partial file is removed, no matter
what follows. -/
theorem writeStreamGo_over (maxBytes : Nat) :
    ∀ (chunks extra : List (List Nat)) (written : Nat) (acc : List Nat),
    written ≤ maxBytes → maxBytes < written + (chunks.map List.length).sum →
    writeStreamGo maxBytes (chunks ++ extra) written acc
      = (none, .error "Payload exceeds size limit") := by
  intro chunks
  induction chunks with
  | nil =>
    intro extra written acc hle hover
    simp at hover
    omega
  | cons c rest ih =>
    intro extra written acc hle hover
    by_cases hov : written + c.length > maxBytes
    · simp [writeStreamGo, hov]
    · push_neg at hov
      rw [show ((c :: rest) ++ extra) = c :: (rest ++ extra) from rfl]
      rw [show writeStreamGo maxBytes (c :: (rest ++ extra)) written acc
          = if written + c.length > maxBytes then (none, .error "Payload exceeds size limit")
            else writeStreamGo maxBytes (rest ++ extra) (written + c.length) (acc ++ c) from rfl]
      rw [if_neg (by omega)]
      apply ih extra (written + c.length) (acc ++ c) hov
      simp at hover ⊢
      omega

/-- A stream within the limit is written whole. -/
theorem writeStreamGo_ok (maxBytes : Nat) :
    ∀ (chunks : List (List Nat)) (written : Nat) (acc : List Nat),
    written + (chunks.map List.length).sum ≤ maxBytes →
    writeStreamGo maxBytes chunks written acc = (some (acc ++ chunks.flatten), .ok ()) := by
  intro chunks
  induction chunks with
  | nil => intro written acc _; simp [writeStreamGo]
  | cons c rest ih =>
    intro written acc hle
    simp only [List.map_cons, List.sum_cons] at hle
    rw [show writeStreamGo maxBytes (c :: rest) written acc
        = if written + c.length > maxBytes then (none, .error "Payload exceeds size limit")
          else writeStreamGo maxBytes rest (written + c.length) (acc ++ c) from rfl]
    rw [if_neg (by omega)]
    rw [ih (written + c.length) (acc ++ c) (by omega)]
    simp

/-- Claim C4: a payload whose byte count exceeds the configured limit —
checked incrementally, so already when an initial run of chunks overflows,
regardless of the rest of the stream — makes the write fail with the size
error and leaves no file at the destination (the partial file is removed);
an over-limit buffer is rejected before anything is written; a payload
within the limit is written in full. -/
theorem writeWithLimit_size_enforcement :
    (∀ (maxBytes : Nat) (chunks extra : List (List Nat)),
        maxBytes < (chunks.map List.length).sum →
        writeStream (chunks ++ extra) maxBytes = (none, .error "Payload exceeds size limit"))
    ∧ (∀ (maxBytes : Nat) (data : List Nat),
        maxBytes < data.length →
        writeBuffer none data maxBytes = (none, .error "Payload exceeds size limit"))
    ∧ (∀ (maxBytes : Nat) (chunks : List (List Nat)),
        (chunks.map List.length).sum ≤ maxBytes →
        writeStream chunks maxBytes = (some chunks.flatten, .ok ())) := by
  refine ⟨?_, ?_, ?_⟩
  · intro maxBytes chunks extra hover
    exact writeStreamGo_over maxBytes chunks extra 0 [] (Nat.zero_le _) (by omega)
  · intro maxBytes data hover
    simp [writeBuffer, hover]
  · intro maxBytes chunks hle
    have h := writeStreamGo_ok maxBytes chunks 0 [] (by omega)
    simpa [writeStream] using h

/-- Witness at one byte over the limit: limit 4, five bytes streamed. -/
theorem writeWithLimit_size_enforcement_witness :
    writeStream ([[1, 2, 3], [4, 5]] ++ []) 4 = (none, .error "Payload exceeds size limit")
    ∧ writeBuffer none [1, 2, 3, 4, 5] 4 = (none, .error "Payload exceeds size limit") :=
  ⟨writeWithLimit_size_enforcement.1 4 [[1, 2, 3], [4, 5]] [] (by decide),
   writeWithLimit_size_enforcement.2.1 4 [1, 2, 3, 4, 5] (by decide)⟩

/-!
Sanitizer lemmas for C3 and C10.
-/

/-- The output of the `..`-removal is a sublist of its input. -/
theorem removeDotDot_sublist : ∀ l : List Char, List.Sublist (removeDotDot l) l := by
  intro l
  induction l using removeDotDot.induct with
  | case1 => simp [removeDotDot]
  | case2 c => simp [removeDotDot]
  | case3 c1 c2 rest h ih =>
    rw [show removeDotDot (c1 :: c2 :: rest) = removeDotDot rest from by
      simp [removeDotDot, h]]
    exact (ih.cons _).cons _
  | case4 c1 c2 rest h ih =>
    rw [show removeDotDot (c1 :: c2 :: rest) = c1 :: removeDotDot (c2 :: rest) from by
      simp [removeDotDot, h]]
    exact ih.cons₂ c1

/-- `hasDD l` says `l` contains two adjacent dots. -/
def hasDD (l : List Char) : Prop :=
  ∃ a b, l = a ++ '.' :: '.' :: b

theorem hasDD_nil : ¬ hasDD [] := by
  rintro ⟨a, b, h⟩
  cases a <;> simp at h

theorem hasDD_single (c : Char) : ¬ hasDD [c] := by
  rintro ⟨a, b, h⟩
  cases a with
  | nil => simp at h
  | cons x a' => simp at h

theorem hasDD_cons (c : Char) (t : List Char) :
    hasDD (c :: t) ↔ (c = '.' ∧ t.head? = some '.') ∨ hasDD t := by
  constructor
  · rintro ⟨a, b, hab⟩
    cases a with
    | nil =>
      simp at hab
      exact Or.inl ⟨hab.1, by rw [hab.2]; simp⟩
    | cons x a' =>
      simp at hab
      exact Or.inr ⟨a', b, hab.2⟩
  · rintro (⟨hc, hh⟩ | ⟨a, b, hab⟩)
    · cases t with
      | nil => simp at hh
      | cons y t' =>
        simp at hh
        exact ⟨[], t', by simp [hc, hh]⟩
    · exact ⟨c :: a, b, by simp [hab]⟩

theorem hasDD_mem {l : List Char} (h : hasDD l) : '.' ∈ l := by
  obtain ⟨a, b, rfl⟩ := h
  simp

/-- If the input does not start with a dot, neither does the output of the
`..`-removal. -/
theorem removeDotDot_head : ∀ (l : List Char), l.head? ≠ some '.' →
    (removeDotDot l).head? ≠ some '.' := by
  intro l h
  match l with
  | [] => simp [removeDotDot]
  | [c] => simpa [removeDotDot] using h
  | c1 :: c2 :: rest =>
    have hc1 : c1 ≠ '.' := by simpa using h
    rw [show removeDotDot (c1 :: c2 :: rest) = c1 :: removeDotDot (c2 :: rest) from by
      simp only [removeDotDot]
      rw [if_neg (fun hh : c1 = '.' ∧ c2 = '.' => hc1 hh.1)]]
    simpa using hc1

/-- The `..`-removal leaves no adjacent dot pair behind: the scan is left
to right, so a surviving dot is never followed by another. -/
theorem not_hasDD_removeDotDot : ∀ l : List Char, ¬ hasDD (removeDotDot l) := by
  intro l
  induction l using removeDotDot.induct with
  | case1 => simpa [removeDotDot] using hasDD_nil
  | case2 c => simpa [removeDotDot] using hasDD_single c
  | case3 c1 c2 rest h ih =>
    rw [show removeDotDot (c1 :: c2 :: rest) = removeDotDot rest from by
      simp [removeDotDot, h]]
    exact ih
  | case4 c1 c2 rest h ih =>
    rw [show removeDotDot (c1 :: c2 :: rest) = c1 :: removeDotDot (c2 :: rest) from by
      simp [removeDotDot, h]]
    intro hdd
    rcases (hasDD_cons _ _).1 hdd with ⟨hc1, hhead⟩ | hdd'
    · have hc2 : c2 ≠ '.' := fun hc2 => h ⟨hc1, hc2⟩
      exact removeDotDot_head (c2 :: rest) (by simpa using hc2) hhead
    · exact ih hdd'

/-- On an input without slashes — the only kind `sanitize` feeds it —
`basenameL` is the identity. -/
theorem basenameL_no_slash (l : List Char) (h : ∀ c ∈ l, c ≠ '/') : basenameL l = l := by
  cases hl : l with
  | nil => simp [basenameL]
  | cons x xs =>
    subst hl
    have hall : ∀ c ∈ (x :: xs).reverse, c ≠ '/' := by
      intro c hc
      exact h c (List.mem_reverse.1 hc)
    obtain ⟨y, t, hyt⟩ : ∃ y t, (x :: xs).reverse = y :: t := by
      cases hrev : (x :: xs).reverse with
      | nil => exact absurd hrev (by simp)
      | cons y t => exact ⟨y, t, rfl⟩
    have hy : y ≠ '/' := hall y (by rw [hyt]; simp)
    have hdrop : (x :: xs).reverse.dropWhile (fun c => c = '/') = (x :: xs).reverse := by
      rw [hyt, List.dropWhile_cons]
      simp [hy]
    have htake : (x :: xs).reverse.takeWhile (fun c => c ≠ '/') = (x :: xs).reverse := by
      rw [List.takeWhile_eq_self_iff]
      intro c hc
      simpa using hall c hc
    have hne : (x :: xs).reverse ≠ [] := by simp
    simp only [basenameL, hdrop]
    rw [if_neg hne, htake, List.reverse_reverse]

/-- Characters surviving `sanitize`'s two filter passes are not the null
byte nor either slash kind. -/
theorem mem_filtered {l : List Char} {c : Char}
    (hc : c ∈ (l.filter (fun c => c ≠ Char.ofNat 0)).filter (fun c => c ≠ '/' ∧ c ≠ '\\')) :
    c ≠ Char.ofNat 0 ∧ c ≠ '/' ∧ c ≠ '\\' := by
  have h2 := List.mem_filter.1 hc
  have h1 := List.mem_filter.1 h2.1
  refine ⟨by simpa using h1.2, ?_⟩
  have := h2.2
  simp only [decide_eq_true_eq] at this
  exact this

/-- The basename step of `sanitizeCore` is the identity: its input has
already been stripped of slashes. -/
theorem sanitizeCore_eq (l : List Char) :
    sanitizeCore l
      = removeDotDot ((l.filter (fun c => c ≠ Char.ofNat 0)).filter
          (fun c => c ≠ '/' ∧ c ≠ '\\')) := by
  unfold sanitizeCore
  apply basenameL_no_slash
  intro c hc
  exact (mem_filtered ((removeDotDot_sublist _).mem hc)).2.1

/-- `sanitize` returns either the fallback or the stripped input. -/
theorem sanitize_eq_branch (l : List Char) :
    sanitize l = fileFallback ∨
    sanitize l
      = removeDotDot ((l.filter (fun c => c ≠ Char.ofNat 0)).filter
          (fun c => c ≠ '/' ∧ c ≠ '\\')) := by
  unfold sanitize
  split
  · exact Or.inl rfl
  · exact Or.inr (sanitizeCore_eq l)

/-- `sanitize` never returns the empty name. -/
theorem sanitize_ne_nil_aux (l : List Char) : sanitize l ≠ [] := by
  unfold sanitize
  split
  · simp [fileFallback]
  · next h => exact h

/-- The characters of a sanitized name: no null byte, no slash, no
backslash, and no adjacent `..` pair. -/
theorem sanitize_clean (l : List Char) :
    Char.ofNat 0 ∉ sanitize l ∧ '/' ∉ sanitize l ∧ '\\' ∉ sanitize l
      ∧ ¬ hasDD (sanitize l) := by
  rcases sanitize_eq_branch l with h | h <;> rw [h]
  · refine ⟨by decide, by decide, by decide, fun hdd => ?_⟩
    have := hasDD_mem hdd
    simp [fileFallback] at this
  · set c2 := (l.filter (fun c => c ≠ Char.ofNat 0)).filter (fun c => c ≠ '/' ∧ c ≠ '\\')
    refine ⟨fun hc => ?_, fun hc => ?_, fun hc => ?_, not_hasDD_removeDotDot c2⟩
    · exact (mem_filtered ((removeDotDot_sublist c2).mem hc)).1 rfl
    · exact (mem_filtered ((removeDotDot_sublist c2).mem hc)).2.1 rfl
    · exact (mem_filtered ((removeDotDot_sublist c2).mem hc)).2.2 rfl

/-!
Path-resolution lemmas for C3 and C10.
-/

/-- A slash-free child splits into the single segment it is. -/
theorem splitSlash_no_slash : ∀ (l cur : List Char), (∀ c ∈ l, c ≠ '/') →
    splitSlash l cur = [cur.reverse ++ l] := by
  intro l
  induction l with
  | nil => intro cur _; simp [splitSlash]
  | cons c rest ih =>
    intro cur h
    have hc : c ≠ '/' := h c (by simp)
    rw [show splitSlash (c :: rest) cur
        = if c = '/' then cur.reverse :: splitSlash rest []
          else splitSlash rest (c :: cur) from rfl]
    rw [if_neg hc, ih (c :: cur) (fun x hx => h x (by simp [hx]))]
    simp

/-- Resolving a slash-free filename segment under a directory appends it as
one new segment. -/
theorem resolveUnder_single (parent : List (List Char)) (child : List Char)
    (hslash : ∀ c ∈ child, c ≠ '/') (h1 : child ≠ []) (h2 : child ≠ ['.'])
    (h3 : child ≠ ['.', '.']) :
    resolveUnder parent child = parent ++ [child] := by
  have hhead : child.head? ≠ some '/' := by
    cases child with
    | nil => simp
    | cons c cs => simpa using hslash c (by simp)
  unfold resolveUnder
  rw [splitSlash_no_slash child [] hslash, if_neg hhead]
  simp [h1, h2, h3]

/-- Rendering one more segment appends `/segment`. -/
theorem renderPath_append_single (a : List (List Char)) (b : List Char) :
    renderPath (a ++ [b]) = renderPath a ++ '/' :: b := by
  simp [renderPath, List.foldl_append]

/-- `startsWith` holds on every extension of the probe string. -/
theorem startsWithL_append : ∀ (pre rest : List Char), startsWithL pre (pre ++ rest) = true := by
  intro pre
  induction pre with
  | nil => intro rest; rfl
  | cons a as ih =>
    intro rest
    simp [startsWithL, ih]

/-- `safePath` accepts a slash-free, non-dot filename and returns the
in-root destination `parent/child`. -/
theorem safePath_ok (parent : List (List Char)) (child : List Char)
    (hslash : ∀ c ∈ child, c ≠ '/') (h1 : child ≠ []) (h2 : child ≠ ['.'])
    (h3 : child ≠ ['.', '.']) :
    safePath parent child = .ok (renderPath parent ++ '/' :: child) := by
  unfold safePath
  rw [resolveUnder_single parent child hslash h1 h2 h3, renderPath_append_single]
  rw [if_pos]
  left
  rw [show renderPath parent ++ '/' :: child = (renderPath parent ++ ['/']) ++ child by simp]
  exact startsWithL_append _ _

/-- `safePath` fails closed with the distinct traversal error whenever the
resolved path neither is the root nor lies under it. -/
theorem safePath_escape (parent : List (List Char)) (child : List Char)
    (h : ¬ (startsWithL (renderPath parent ++ ['/']) (renderPath (resolveUnder parent child)) = true
          ∨ renderPath (resolveUnder parent child) = renderPath parent)) :
    safePath parent child = .error "Path traversal detected" := by
  unfold safePath
  rw [if_neg h]

/-- Sanitized names contain no slash (restatement used for filenames). -/
theorem sanitize_no_slash (l : List Char) : ∀ c ∈ sanitize l, c ≠ '/' := by
  intro c hc hceq
  subst hceq
  exact (sanitize_clean l).2.1 hc

/-- The artifact filename `sanitize(jobId) ++ '-' ++ sanitize(name)` is a
slash-free segment distinct from `''`, `'.'` and `'..'`. -/
theorem artifactName_segment (jobId name : List Char) :
    (∀ c ∈ sanitize jobId ++ '-' :: sanitize name, c ≠ '/')
    ∧ sanitize jobId ++ '-' :: sanitize name ≠ []
    ∧ sanitize jobId ++ '-' :: sanitize name ≠ ['.']
    ∧ sanitize jobId ++ '-' :: sanitize name ≠ ['.', '.'] := by
  have hid := sanitize_ne_nil_aux jobId
  have hname := sanitize_ne_nil_aux name
  have hlen_id : 1 ≤ (sanitize jobId).length := by
    cases hs : sanitize jobId with
    | nil => exact absurd hs hid
    | cons a b => simp
  have hlen_name : 1 ≤ (sanitize name).length := by
    cases hs : sanitize name with
    | nil => exact absurd hs hname
    | cons a b => simp
  have hlen : 3 ≤ (sanitize jobId ++ '-' :: sanitize name).length := by
    simp only [List.length_append, List.length_cons]
    omega
  refine ⟨?_, ?_, ?_, ?_⟩
  · intro c hc
    rcases List.mem_append.1 hc with h' | h'
    · exact sanitize_no_slash jobId c h'
    · rcases List.mem_cons.1 h' with h'' | h''
      · subst h''; decide
      · exact sanitize_no_slash name c h''
  · intro h; rw [h] at hlen; simp at hlen
  · intro h; rw [h] at hlen; simp at hlen
  · intro h; rw [h] at hlen; simp at hlen

/-- Claim C3: every filename stored by `saveArtifact` is fully sanitized
(null bytes, path separators and `..` sequences stripped, reduced to a
basename); the destination is re-resolved and always lies strictly inside
the artifact root (`root/` is a proper path-start of it), so no input can
make `saveArtifact` write outside the root; and any resolution that did
escape the root fails with the distinct `Path traversal detected` error. -/
theorem saveArtifact_path_safety :
    (∀ s : List Char,
        Char.ofNat 0 ∉ sanitize s ∧ '/' ∉ sanitize s ∧ '\\' ∉ sanitize s
          ∧ ¬ hasDD (sanitize s))
    ∧ (∀ (dir : List (List Char)) (jobId name : List Char),
        saveArtifactDest dir jobId name
          = .ok (renderPath dir ++ '/' :: (sanitize jobId ++ '-' :: sanitize name))
        ∧ startsWithL (renderPath dir ++ ['/'])
            (renderPath dir ++ '/' :: (sanitize jobId ++ '-' :: sanitize name)) = true)
    ∧ (∀ (dir : List (List Char)) (child : List Char),
        ¬ (startsWithL (renderPath dir ++ ['/']) (renderPath (resolveUnder dir child)) = true
            ∨ renderPath (resolveUnder dir child) = renderPath dir) →
        safePath dir child = .error "Path traversal detected") := by
  refine ⟨sanitize_clean, ?_, safePath_escape⟩
  intro dir jobId name
  obtain ⟨hslash, h1, h2, h3⟩ := artifactName_segment jobId name
  constructor
  · unfold saveArtifactDest
    exact safePath_ok dir _ hslash h1 h2 h3
  · rw [show renderPath dir ++ '/' :: (sanitize jobId ++ '-' :: sanitize name)
        = (renderPath dir ++ ['/']) ++ (sanitize jobId ++ '-' :: sanitize name) by simp]
    exact startsWithL_append _ _

theorem saveArtifact_path_safety_witness :
    saveArtifactDest [['d'], ['a']] ("job1".toList) ("../../etc/passwd".toList)
      = .ok (renderPath [['d'], ['a']] ++ '/'
          :: (sanitize ("job1".toList) ++ '-' :: sanitize ("../../etc/passwd".toList)))
    ∧ safePath [['d'], ['a']] ("../x".toList) = .error "Path traversal detected" :=
  ⟨(saveArtifact_path_safety.2.1 [['d'], ['a']] ("job1".toList) ("../../etc/passwd".toList)).1,
   saveArtifact_path_safety.2.2 [['d'], ['a']] ("../x".toList) (by decide)⟩

/-- The tarball filename `sanitize(jobId) ++ '.tar.gz'` is a slash-free
segment distinct from `''`, `'.'` and `'..'`. -/
theorem tarballName_segment (jobId : List Char) :
    (∀ c ∈ sanitize jobId ++ tarGzSuffix, c ≠ '/')
    ∧ sanitize jobId ++ tarGzSuffix ≠ []
    ∧ sanitize jobId ++ tarGzSuffix ≠ ['.']
    ∧ sanitize jobId ++ tarGzSuffix ≠ ['.', '.'] := by
  have hid := sanitize_ne_nil_aux jobId
  have hlen_id : 1 ≤ (sanitize jobId).length := by
    cases hs : sanitize jobId with
    | nil => exact absurd hs hid
    | cons a b => simp
  have hlen : 8 ≤ (sanitize jobId ++ tarGzSuffix).length := by
    simp only [List.length_append, tarGzSuffix, List.length_cons, List.length_nil]
    omega
  refine ⟨?_, ?_, ?_, ?_⟩
  · intro c hc
    rcases List.mem_append.1 hc with h' | h'
    · exact sanitize_no_slash jobId c h'
    · intro hceq; subst hceq; simp [tarGzSuffix] at h'
  · intro h; rw [h] at hlen; simp at hlen
  · intro h; rw [h] at hlen; simp at hlen
  · intro h; rw [h] at hlen; simp at hlen

/-- Claim C10: the sanitizer never produces an empty filename — an input
that strips to nothing (`..`, `/`, a null byte) becomes the fallback
`file` — and consequently both `saveTarball` and `saveArtifact` always
compute a defined destination under the storage root. -/
theorem sanitize_nonempty :
    (∀ s : List Char, sanitize s ≠ [])
    ∧ sanitize ['.', '.'] = fileFallback
    ∧ sanitize ['/'] = fileFallback
    ∧ sanitize [Char.ofNat 0] = fileFallback
    ∧ (∀ (dir : List (List Char)) (jobId name : List Char),
        saveArtifactDest dir jobId name
          = .ok (renderPath dir ++ '/' :: (sanitize jobId ++ '-' :: sanitize name)))
    ∧ (∀ (dir : List (List Char)) (jobId : List Char),
        saveTarballDest dir jobId
          = .ok (renderPath dir ++ '/' :: (sanitize jobId ++ tarGzSuffix))) := by
  refine ⟨sanitize_ne_nil_aux, by decide, by decide, by decide, ?_, ?_⟩
  · intro dir jobId name
    obtain ⟨hslash, h1, h2, h3⟩ := artifactName_segment jobId name
    unfold saveArtifactDest
    exact safePath_ok dir _ hslash h1 h2 h3
  · intro dir jobId
    obtain ⟨hslash, h1, h2, h3⟩ := tarballName_segment jobId
    unfold saveTarballDest
    exact safePath_ok dir _ hslash h1 h2 h3

theorem sanitize_nonempty_witness :
    sanitize ("..".toList) = fileFallback ∧ sanitize ("..".toList) ≠ [] :=
  ⟨by decide, sanitize_nonempty.1 ("..".toList)⟩
